import Mathlib

/-!
Verification of the query planning and execution core of the MeiliSearch
repository (file `meilisearch-core/src/query_tree.rs`), as a shallow
embedding in Lean 4.

Conventions of the embedding:
* Rust `DocumentId` (a `u32`) is modelled as `Nat`; `attribute` (`u16`) and
  `word_index` (`u16`) likewise.  Only comparisons of these values are
  performed by the code under study — the one arithmetic operation,
  `(a.word_index as u32) + 1` in the phrase merge-join, is performed after a
  widening cast and cannot overflow, so plain `Nat` arithmetic is faithful.
* The LMDB-backed stores (`store::PostingsLists`, `store::Synonyms`) and the
  read transaction are modelled as a `Store` record of pure lookup
  functions; a fallible read is an `Except Err` value, mirroring the
  `MResult`/`?` plumbing of the source.
* `sdset::SetBuf` values are modelled as plain lists together with the
  strict-sortedness facts proved about them.
-/

/-- Source `DocumentId` of the source (a `u32`), as a natural number. -/
abbrev DocumentId := Nat

/-- Modelled from the spec: a postings entry.  The `DocIndex` type lives in
the crate root (not among the provided sources); §3 and §6 of the
specification describe each entry as the triple
`(document_id, attribute, word_index)`, sorted lexicographically.  The Rust
field `attribute` is a Lean keyword and is renamed `attr` here. -/
structure DocIndex where
  document_id : Nat
  attr : Nat
  word_index : Nat
deriving DecidableEq, Repr

/-- The error type of `MResult`; the source propagates errors opaquely, so a
string stands in for the error payload. -/
abbrev Err := String

/-- Modelled from the spec: the read snapshot together with the two store
handles consulted by the core (`store::PostingsLists`, `store::Synonyms`,
the `fst` word set — none of which are among the provided sources).  §6:
`postings.get` returns `None` for an absent term, and reads may fail
fatally; `synonyms.get` is keyed by the whitespace-joined phrase; the term
dictionary is an immutable set of terms. -/
structure Store where
  wordsSet : List String
  postingsFn : String → Except Err (Option (List DocIndex))
  synonymsFn : String → Option (List (List String))

/-- Source `QueryId` from the source. -/
abbrev QueryId := Nat

/-- Source `QueryKind` from the source. -/
inductive QueryKind where
  | Tolerant : String → QueryKind
  | Exact : String → QueryKind
  | Phrase : List String → QueryKind
deriving DecidableEq, Repr

/-- Source `Query` from the source.  The Rust field `prefix` is a Lean keyword and
is renamed `pfx` here. -/
structure Query where
  id : Nat
  pfx : Bool
  kind : QueryKind
deriving DecidableEq, Repr

/-- Source `Query::tolerant` from the source. -/
def Query.tolerant (id : Nat) (pfx : Bool) (s : String) : Query :=
  { id := id, pfx := pfx, kind := QueryKind.Tolerant s }

/-- Source `Query::exact` from the source. -/
def Query.exact (id : Nat) (pfx : Bool) (s : String) : Query :=
  { id := id, pfx := pfx, kind := QueryKind.Exact s }

/-- Source `Query::phrase2` from the source. -/
def Query.phrase2 (id : Nat) (pfx : Bool) (p : String × String) : Query :=
  { id := id, pfx := pfx, kind := QueryKind.Phrase [p.1, p.2] }

/-- Source `Operation` from the source: the boolean query tree. -/
inductive Operation where
  | And : List Operation → Operation
  | Or : List Operation → Operation
  | Query : Query → Operation
deriving Repr

/-- Source `create_operation` from the source: a combinator that would have exactly
one child collapses to that child; any other cardinality (including zero!)
is wrapped by `f`. -/
def create_operation (ops : List Operation) (f : List Operation → Operation) : Operation :=
  match ops with
  | [a] => a
  | l => f l

/-- Source `is_last` from the source: tag every element of a list with whether it
is the last one. -/
def isLastTag : List α → List (Bool × α)
  | [] => []
  | [a] => [(true, a)]
  | a :: b :: rest => (false, a) :: isLastTag (b :: rest)

/-- Source `MAX_NGRAM` from the source. -/
def MAX_NGRAM : Nat := 3

/-- The length of the postings list stored for `word`, an absent entry
counting as length `0` — the `.map(|pl| pl.len()).unwrap_or(0)` applied to a
successful read in `split_best_frequency`. -/
def freqOf (store : Store) (word : String) : Except Err Nat :=
  (store.postingsFn word).map (fun o => (o.map List.length).getD 0)

/-- The loop of `split_best_frequency`, folding over the candidate split
positions while retaining the best `(min_freq, left, right)` triple.  The
update fires exactly when `min_freq != 0 && best.map_or(true, |(old,_,_)|
min_freq > old)`. -/
def splitLoop (store : Store) (w : List Char) :
    List Nat → Option (Nat × String × String) → Except Err (Option (Nat × String × String))
  | [], best => Except.ok best
  | i :: is, best => do
      let left := String.mk (w.take i)
      let right := String.mk (w.drop i)
      let left_freq ← freqOf store left
      let right_freq ← freqOf store right
      let min_freq := min left_freq right_freq
      let keep : Bool := min_freq != 0 && (match best with
        | none => true
        | some (old, _, _) => decide (old < min_freq))
      let best := if keep then some (min_freq, left, right) else best
      splitLoop store w is best

/-- Source `split_best_frequency` from the source.  `word.char_indices().skip(1)`
enumerates the split points between characters, i.e. character positions
`1, …, len-1`; `split_at` cuts at such a boundary, which on the `List Char`
view of the string is `take i` / `drop i`. -/
def split_best_frequency (store : Store) (word : String) :
    Except Err (Option (String × String)) :=
  (splitLoop store word.data (List.range' 1 (word.length - 1)) none).map
    (Option.map (fun b => (b.2.1, b.2.2)))

/-- Source `fetch_synonyms` from the source.  The actual store lookup is commented
out in the source (`// synonyms.synonyms(reader, words.as_bytes())…`) and
the function unconditionally returns `Ok(vec![])`; only the joined key is
still computed.  The embedding keeps that behaviour, ignoring
`store.synonymsFn`. -/
def fetch_synonyms (_store : Store) (words : List String) :
    Except Err (List (List String)) :=
  let _joined := String.intercalate " " words
  Except.ok []

/-- The character grouping of `slice_group_by`'s `linear_group_by_key`:
maximal runs of consecutive characters sharing the same key value. -/
def groupByKey (f : Char → Bool) : List Char → List (List Char)
  | [] => []
  | c :: cs =>
    match groupByKey f cs with
    | [] => [[c]]
    | g :: gs =>
      match g with
      | [] => [c] :: gs
      | d :: ds => if f c = f d then (c :: d :: ds) :: gs else [c] :: (d :: ds) :: gs

/-- The tokenizer of `create_query_tree`: lowercase (Rust
`str::to_lowercase`, modelled as the per-character lowercase map), split
into maximal runs grouped by `char::is_whitespace`, drop every run
containing whitespace, and number the survivors. -/
def tokenize (query : String) : List (Nat × String) :=
  let q := query.data.map Char.toLower
  let groups := (groupByKey Char.isWhitespace q).map String.mk
  (groups.filter (fun s => !s.data.any Char.isWhitespace)).enum

/-- Rust's `slice::windows(g)`: all contiguous subslices of length `g`
(empty when `g` exceeds the length; `g ≥ 1` at every use site). -/
def windowsL (g : Nat) (l : List α) : List (List α) :=
  (List.range (l.length + 1 - g)).map (fun i => (l.drop i).take g)

/-- The n-gram enumeration of `create_query_tree`: for each group size
`ngram ∈ 1..=MAX_NGRAM` and each window position `i`, the interpretation
`before-singletons ++ [group] ++ after-singletons`; the `if ngram == 1 {
break }` of the source keeps only the first interpretation for size 1.
This enumeration consults no store, so it is factored out of the monadic
builder; the interpretations appear in exactly the source's order. -/
def interpretations (words : List (Nat × String)) :
    List (List (List (Nat × String))) :=
  (List.range' 1 MAX_NGRAM).flatMap (fun ngram =>
    let all := (windowsL ngram words).enum.map (fun p =>
      (words.take p.1).map (fun w => [w]) ++ [p.2] ++
        (words.drop (p.1 + ngram)).map (fun w => [w]))
    if ngram = 1 then all.take 1 else all)

/-- The per-group alternative construction of `create_query_tree`.  A
singleton group contributes the `Tolerant` query, then the synonym `And`s,
then (when `split_best_frequency` finds one) the `Phrase`; a longer group
contributes its synonym `And`s and then the concatenated `Exact` query.
The Rust arm for a longer group reads `words[0].0`, which would panic on an
empty group; groups are windows of length `≥ 1`, so the empty case is
unreachable and modelled by the same `create_operation` collapse. -/
def buildGroup (store : Store) (is_last : Bool) :
    List (Nat × String) → Except Err Operation
  | [(id, word)] => do
      let phrase ← split_best_frequency store word
      let syns ← fetch_synonyms store [word]
      let synOps := syns.map (fun alt =>
        create_operation (alt.map (fun w => Operation.Query (Query.exact id false w)))
          Operation.And)
      let phraseOps := (phrase.map (fun p =>
        Operation.Query (Query.phrase2 id is_last p))).toList
      let alts := Operation.Query (Query.tolerant id is_last word) :: (synOps ++ phraseOps)
      Except.ok (create_operation alts Operation.Or)
  | [] => Except.ok (create_operation [] Operation.Or)
  | (id, w) :: rest => do
      let ws := w :: rest.map (fun p => p.2)
      let syns ← fetch_synonyms store ws
      let synOps := syns.map (fun alt =>
        create_operation (alt.map (fun s => Operation.Query (Query.exact id false s)))
          Operation.And)
      let alts := synOps ++ [Operation.Query (Query.exact id is_last (String.join ws))]
      Except.ok (create_operation alts Operation.Or)

/-- One interpretation of `create_query_tree`: each group becomes an `Or`
of its alternatives (the last group flagged by `is_last`), the groups are
combined by `And`. -/
def buildInterp (store : Store) (groups : List (List (Nat × String))) :
    Except Err Operation := do
  let ops ← (isLastTag groups).mapM (fun p => buildGroup store p.1 p.2)
  Except.ok (create_operation ops Operation.And)

/-- Source `create_query_tree` from the source: tokenize, enumerate the n-gram
interpretations, build each one, and combine them by `Or`. -/
def create_query_tree (store : Store) (query : String) : Except Err Operation := do
  let words := tokenize query
  let ngrams ← (interpretations words).mapM (buildInterp store)
  Except.ok (create_operation ngrams Operation.Or)

/-! ## The evaluator (`traverse_query_tree` and its helpers) -/

/-- The simple Levenshtein edit distance, used to model the Levenshtein
automata of the automaton layer. -/
def editDist : List Char → List Char → Nat
  | [], t => t.length
  | s, [] => s.length
  | a :: s, b :: t =>
      if a = b then editDist s t
      else 1 + min (editDist s t) (min (editDist (a :: s) t) (editDist s (b :: t)))
termination_by s t => s.length + t.length

/-- Modelled from the spec: the edit-distance schedule of the automaton
layer (`crate::automaton`, not among the provided sources); §4.B: distance
0 for length ≤ 4, 1 for length 5–8, 2 beyond. -/
def dfaDistance (w : String) : Nat :=
  if w.length ≤ 4 then 0 else if w.length ≤ 8 then 1 else 2

/-- Modelled from the spec: `build_dfa` — accept terms within the scheduled
edit distance of `w`, without prefix extension (§4.B). -/
def buildDfa (w : String) (t : String) : Bool :=
  decide (editDist w.data t.data ≤ dfaDistance w)

/-- Modelled from the spec: `build_prefix_dfa` — accept any term one of
whose prefixes is within the scheduled edit distance of `w` (§4.B). -/
def buildPrefixDfa (w : String) (t : String) : Bool :=
  (t.data.inits).any (fun p => decide (editDist w.data p ≤ dfaDistance w))

/-- Modelled from the spec: `build_exact_dfa` — distance 0, no prefix
extension, i.e. accept exactly `w` (§4.B). -/
def buildExactDfa (w : String) (t : String) : Bool := t = w

/-- A successful postings read, an absent entry defaulting to the empty
list — `postings_list(..)?.unwrap_or_default()` in the phrase branch. -/
def postingsOrEmpty (store : Store) (w : String) : Except Err (List DocIndex) :=
  (store.postingsFn w).map (fun o => o.getD [])

/-- The docid-gathering loop shared by the `Tolerant` and `Exact` branches
of `execute_query`: stream the dictionary terms accepted by the DFA and,
for each term with a postings entry, append the `document_id` projection of
its matches; an absent entry contributes nothing. -/
def collectDocids (store : Store) : List String → Except Err (List Nat)
  | [] => Except.ok []
  | w :: ws => do
      match ← store.postingsFn w with
      | none => collectDocids store ws
      | some pl => do
          let rest ← collectDocids store ws
          Except.ok (pl.map DocIndex.document_id ++ rest)

/-- Strictly-sorted insertion, dropping duplicates. -/
def insertSorted (x : Nat) : List Nat → List Nat
  | [] => [x]
  | y :: ys => if x < y then x :: y :: ys else if x = y then y :: ys else y :: insertSorted x ys

/-- Source `SetBuf::from_dirty` of the `sdset` crate: sort the gathered ids and
drop duplicates, yielding the strictly ascending set. -/
def setFromDirty (l : List Nat) : List Nat := l.foldr insertSorted []

/-- Ordered intersection of two strictly ascending lists (one step of
`sdset::multi::Intersection`). -/
def interSorted : List Nat → List Nat → List Nat
  | [], _ => []
  | _ :: _, [] => []
  | a :: as, b :: bs =>
      if a < b then interSorted as (b :: bs)
      else if b < a then interSorted (a :: as) bs
      else a :: interSorted as bs
termination_by l1 l2 => l1.length + l2.length

/-- Source `sdset::multi::Intersection`: the ids present in every one of the
listed sets (empty when no set is given). -/
def multiIntersection : List (List Nat) → List Nat
  | [] => []
  | l :: ls => ls.foldl interSorted l

/-- The merge-join comparator key of the phrase branch for the first
word's entries: `(a.document_id, a.attribute, (a.word_index as u32) + 1)`. -/
def keyOfLeft (a : DocIndex) : Nat × Nat × Nat := (a.document_id, a.attr, a.word_index + 1)

/-- The merge-join comparator key for the second word's entries:
`(b.document_id, b.attribute, b.word_index)`. -/
def keyOfRight (b : DocIndex) : Nat × Nat × Nat := (b.document_id, b.attr, b.word_index)

/-- Lexicographic strict comparison of key triples — Rust's derived `Ord`
on 3-tuples of integers. -/
def lexLt (x y : Nat × Nat × Nat) : Bool :=
  decide (x.1 < y.1) ||
    (decide (x.1 = y.1) && (decide (x.2.1 < y.2.1) ||
      (decide (x.2.1 = y.2.1) && decide (x.2.2 < y.2.2))))

/-- Source `itertools::merge_join_by` restricted to the `Both` outcomes (the
source feeds the join through `.filter_map(EitherOrBoth::both)`): walk the
two sequences, advancing the smaller side, and emit the pairs on which the
comparator answers `Equal`. -/
def mergeBoth : List DocIndex → List DocIndex → List (DocIndex × DocIndex)
  | [], _ => []
  | _ :: _, [] => []
  | a :: as, b :: bs =>
      if lexLt (keyOfLeft a) (keyOfRight b) then mergeBoth as (b :: bs)
      else if lexLt (keyOfRight b) (keyOfLeft a) then mergeBoth (a :: as) bs
      else (a, b) :: mergeBoth as bs
termination_by l1 l2 => l1.length + l2.length

/-- Rust's `Vec::dedup`: remove consecutive equal elements. -/
def dedupAdjacent : List Nat → List Nat
  | [] => []
  | [a] => [a]
  | a :: b :: rest =>
      if a = b then dedupAdjacent (b :: rest) else a :: dedupAdjacent (b :: rest)

/-- Source `sdset::SetBuf::new`: accept a vector only when it is already a
strictly ascending set. -/
def SetBufNew (l : List Nat) : Option (List Nat) :=
  if List.Chain' (· < ·) l then some l else none

/-- The panic of `SetBuf::new(docids).unwrap()` in the phrase branch,
modelled as a distinguished error value.  The safety theorem below proves
this branch unreachable on sorted postings. -/
def unwrapPanicMsg : Err := "SetBuf::new(docids).unwrap() panicked"

/-- Source `execute_query` from the source: resolve one leaf against the term
dictionary and the postings store.  The `Exact` arm ignores the leaf's
prefix flag and always builds the exact DFA (the source carries a
`TODO support prefix and non-prefix exact DFA`). -/
def executeQuery (store : Store) (query : Query) : Except Err (List Nat) :=
  match query.kind with
  | QueryKind.Tolerant word =>
      let dfa := if query.pfx then buildPrefixDfa word else buildDfa word
      (collectDocids store (store.wordsSet.filter dfa)).map setFromDirty
  | QueryKind.Exact word =>
      let dfa := buildExactDfa word
      (collectDocids store (store.wordsSet.filter dfa)).map setFromDirty
  | QueryKind.Phrase words =>
      match words with
      | [w1, w2] => do
          let first ← postingsOrEmpty store w1
          let second ← postingsOrEmpty store w2
          let pairs := mergeBoth first second
          let pairEntries := pairs.flatMap (fun ab => [ab.1, ab.2])
          let docids := dedupAdjacent (pairEntries.map DocIndex.document_id)
          match SetBufNew docids with
          | some s => Except.ok s
          | none => Except.error unwrapPanicMsg
      | _ => Except.ok []

mutual

/-- The recursive evaluation shared by `execute_and`, `execute_or` and
`execute_query`.  The memoization cache of the source maps each node to
the result of this same computation, so the cached traversal returns the
very same values; the cache is dropped from the embedding.  `And` combines
the children's results by `sdset` multi-intersection; `Or` concatenates
them and rebuilds a set via `SetBuf::from_dirty`. -/
def evalOperation (store : Store) : Operation → Except Err (List Nat)
  | Operation.And ops => do
      let results ← evalOperations store ops
      Except.ok (multiIntersection results)
  | Operation.Or ops => do
      let results ← evalOperations store ops
      Except.ok (setFromDirty results.flatten)
  | Operation.Query query => executeQuery store query

/-- Left-to-right evaluation of a node's children, the first failing read
aborting the traversal. -/
def evalOperations (store : Store) : List Operation → Except Err (List (List Nat))
  | [] => Except.ok []
  | op :: ops => do
      let r ← evalOperation store op
      let rs ← evalOperations store ops
      Except.ok (r :: rs)

end

/-- Source `QueryResult` from the source. -/
structure QueryResult where
  docids : List Nat
  queries : List (Query × List DocIndex)

/-- Source `traverse_query_tree` from the source.  The `postings` map is created
empty and threaded through the traversal, but the single write to it
(`postings.insert(query, matches)` at the end of `execute_query`) is
commented out in the source, so the returned `queries` map is always
empty. -/
def traverse_query_tree (store : Store) (tree : Operation) : Except Err QueryResult :=
  (evalOperation store tree).map (fun docids => ⟨docids, []⟩)


/-! ## Ordered-set toolkit -/

theorem mem_insertSorted (x y : Nat) (l : List Nat) :
    y ∈ insertSorted x l ↔ y = x ∨ y ∈ l := by
  induction l with
  | nil => simp [insertSorted]
  | cons a as ih =>
    simp only [insertSorted]
    by_cases h1 : x < a
    · rw [if_pos h1]
      simp [List.mem_cons]
    · rw [if_neg h1]
      by_cases h2 : x = a
      · subst h2
        rw [if_pos rfl]
        simp only [List.mem_cons]
        tauto
      · rw [if_neg h2]
        simp only [List.mem_cons, ih]
        tauto

theorem sorted_insertSorted (x : Nat) (l : List Nat)
    (h : List.Sorted (· < ·) l) : List.Sorted (· < ·) (insertSorted x l) := by
  induction l with
  | nil => simp [insertSorted]
  | cons a as ih =>
    have ha : ∀ b ∈ as, a < b := fun b hb => List.rel_of_sorted_cons h b hb
    have htail : List.Sorted (· < ·) as := h.of_cons
    simp only [insertSorted]
    by_cases h1 : x < a
    · rw [if_pos h1]
      refine List.Pairwise.cons ?_ h
      intro b hb
      rcases List.mem_cons.mp hb with rfl | hb
      · exact h1
      · exact lt_trans h1 (ha b hb)
    · rw [if_neg h1]
      by_cases h2 : x = a
      · rw [if_pos h2]; exact h
      · rw [if_neg h2]
        refine List.Pairwise.cons ?_ (ih htail)
        intro b hb
        rcases (mem_insertSorted x b as).mp hb with rfl | hb
        · omega
        · exact ha b hb

theorem sorted_setFromDirty (l : List Nat) : List.Sorted (· < ·) (setFromDirty l) := by
  induction l with
  | nil => simp [setFromDirty]
  | cons a as ih => exact sorted_insertSorted a _ ih

theorem mem_setFromDirty (y : Nat) (l : List Nat) : y ∈ setFromDirty l ↔ y ∈ l := by
  induction l with
  | nil => simp [setFromDirty]
  | cons a as ih =>
    simp only [setFromDirty, List.foldr_cons] at *
    rw [mem_insertSorted, ih, List.mem_cons]

theorem interSorted_sublist (l1 l2 : List Nat) : (interSorted l1 l2).Sublist l1 := by
  induction l1, l2 using interSorted.induct with
  | case1 l2 => simp [interSorted]
  | case2 => simp [interSorted]
  | case3 a as b bs h ih =>
    simp only [interSorted, if_pos h]
    exact ih.cons a
  | case4 a as b bs h1 h2 ih =>
    simp only [interSorted, if_neg h1, if_pos h2]
    exact ih
  | case5 a as b bs h1 h2 ih =>
    simp only [interSorted, if_neg h1, if_neg h2]
    exact ih.cons₂ a

theorem sorted_interSorted (l1 l2 : List Nat) (h : List.Sorted (· < ·) l1) :
    List.Sorted (· < ·) (interSorted l1 l2) :=
  h.sublist (interSorted_sublist l1 l2)

theorem sorted_multiIntersection (ls : List (List Nat))
    (h : ∀ l ∈ ls, List.Sorted (· < ·) l) :
    List.Sorted (· < ·) (multiIntersection ls) := by
  match ls with
  | [] => simp [multiIntersection]
  | l :: rest =>
    simp only [multiIntersection]
    have hl : List.Sorted (· < ·) l := h l (List.mem_cons_self l rest)
    clear h
    induction rest generalizing l with
    | nil => simpa using hl
    | cons x xs ih =>
      simp only [List.foldl_cons]
      exact ih _ (sorted_interSorted l x hl)

theorem dedupAdjacent_headEq (b : Nat) (r : List Nat) :
    (dedupAdjacent (b :: r)).head? = some b := by
  induction r generalizing b with
  | nil => simp [dedupAdjacent]
  | cons c cs ih =>
    simp only [dedupAdjacent]
    by_cases h : b = c
    · rw [if_pos h]
      subst h
      exact ih b
    · rw [if_neg h]
      simp

theorem mem_dedupAdjacent (y : Nat) (l : List Nat) :
    y ∈ dedupAdjacent l ↔ y ∈ l := by
  induction l with
  | nil => simp [dedupAdjacent]
  | cons a as ih =>
    match as with
    | [] => simp [dedupAdjacent]
    | b :: bs =>
      simp only [dedupAdjacent]
      by_cases h : a = b
      · rw [if_pos h]
        subst h
        rw [ih]
        simp [List.mem_cons]
      · rw [if_neg h]
        simp only [List.mem_cons] at *
        rw [ih]

theorem sorted_dedupAdjacent (l : List Nat) (h : List.Chain' (· ≤ ·) l) :
    List.Sorted (· < ·) (dedupAdjacent l) := by
  induction l with
  | nil => simp [dedupAdjacent]
  | cons a as ih =>
    match as with
    | [] => simp [dedupAdjacent]
    | b :: bs =>
      have hab : a ≤ b := List.chain'_cons.mp h |>.1
      have htail : List.Chain' (· ≤ ·) (b :: bs) := (List.chain'_cons.mp h).2
      simp only [dedupAdjacent]
      by_cases hEq : a = b
      · rw [if_pos hEq]
        exact ih htail
      · rw [if_neg hEq]
        refine List.Pairwise.cons ?_ (ih htail)
        intro c hc
        have hbc : b ≤ c := by
          rcases (mem_dedupAdjacent c (b :: bs)).mp hc with h1
          have : List.Sorted (· ≤ ·) (b :: bs) :=
            List.chain'_iff_pairwise.mp htail
          rcases List.mem_cons.mp h1 with rfl | h1
          · exact le_refl c
          · exact List.rel_of_sorted_cons this c h1
        omega

/-! ## The lexicographic key order of the phrase merge-join -/

/-- The sort key of a postings entry: the lexicographic triple
`(document_id, attribute, word_index)`. -/
def tripleOf (a : DocIndex) : Nat × Nat × Nat := (a.document_id, a.attr, a.word_index)

/-- The strict lexicographic order on key triples, as a proposition. -/
def Lex3 (x y : Nat × Nat × Nat) : Prop :=
  x.1 < y.1 ∨ (x.1 = y.1 ∧ (x.2.1 < y.2.1 ∨ (x.2.1 = y.2.1 ∧ x.2.2 < y.2.2)))

/-- A postings list as guaranteed by the store: strictly ascending in the
lexicographic triple (`sdset::Set<DocIndex>`). -/
def postingsSorted (l : List DocIndex) : Prop :=
  List.Pairwise (fun a b => Lex3 (tripleOf a) (tripleOf b)) l

/-- A well-formed snapshot: every stored postings list is strictly
ascending in the lexicographic triple. -/
def Store.WF (store : Store) : Prop :=
  ∀ w pl, store.postingsFn w = Except.ok (some pl) → postingsSorted pl

theorem lexLt_iff (x y : Nat × Nat × Nat) : lexLt x y = true ↔ Lex3 x y := by
  simp [lexLt, Lex3]

theorem lex3_irrefl (x : Nat × Nat × Nat) : ¬ Lex3 x x := by
  obtain ⟨x1, x2, x3⟩ := x
  simp [Lex3]

theorem lex3_trans {x y z : Nat × Nat × Nat} (h1 : Lex3 x y) (h2 : Lex3 y z) : Lex3 x z := by
  obtain ⟨x1, x2, x3⟩ := x
  obtain ⟨y1, y2, y3⟩ := y
  obtain ⟨z1, z2, z3⟩ := z
  simp only [Lex3] at *
  omega

theorem lex3_eq_of_not_lt {x y : Nat × Nat × Nat}
    (h1 : ¬ Lex3 x y) (h2 : ¬ Lex3 y x) : x = y := by
  obtain ⟨x1, x2, x3⟩ := x
  obtain ⟨y1, y2, y3⟩ := y
  simp only [Lex3, Prod.mk.injEq] at *
  omega

theorem lex3_asymm {x y : Nat × Nat × Nat} (h : Lex3 x y) : ¬ Lex3 y x := by
  obtain ⟨x1, x2, x3⟩ := x
  obtain ⟨y1, y2, y3⟩ := y
  simp only [Lex3] at *
  omega

theorem keyOfRight_eq_tripleOf (b : DocIndex) : keyOfRight b = tripleOf b := rfl

theorem lex3_keyOfLeft_shift (a b : DocIndex) :
    Lex3 (keyOfLeft a) (keyOfLeft b) ↔ Lex3 (tripleOf a) (tripleOf b) := by
  obtain ⟨a1, a2, a3⟩ := a
  obtain ⟨b1, b2, b3⟩ := b
  simp only [Lex3, keyOfLeft, tripleOf]
  omega

theorem docIndex_of_keyEq {a b : DocIndex} (h : keyOfLeft a = keyOfRight b) :
    b = ⟨a.document_id, a.attr, a.word_index + 1⟩ := by
  obtain ⟨a1, a2, a3⟩ := a
  obtain ⟨b1, b2, b3⟩ := b
  simp only [keyOfLeft, keyOfRight, Prod.mk.injEq, DocIndex.mk.injEq] at *
  omega

theorem doc_eq_of_keyEq {a b : DocIndex} (h : keyOfLeft a = keyOfRight b) :
    a.document_id = b.document_id := by
  rw [docIndex_of_keyEq h]

/-! ## Properties of the merge-join -/

theorem mergeBoth_sound (l1 l2 : List DocIndex) :
    ∀ p ∈ mergeBoth l1 l2,
      p.1 ∈ l1 ∧ p.2 ∈ l2 ∧ keyOfLeft p.1 = keyOfRight p.2 := by
  induction l1, l2 using mergeBoth.induct with
  | case1 l2 => simp [mergeBoth]
  | case2 => simp [mergeBoth]
  | case3 a as b bs h ih =>
    simp only [mergeBoth, if_pos h]
    intro p hp
    obtain ⟨hp1, hp2, hp3⟩ := ih p hp
    exact ⟨List.mem_cons_of_mem a hp1, hp2, hp3⟩
  | case4 a as b bs h1 h2 ih =>
    simp only [mergeBoth, if_neg h1, if_pos h2]
    intro p hp
    obtain ⟨hp1, hp2, hp3⟩ := ih p hp
    exact ⟨hp1, List.mem_cons_of_mem b hp2, hp3⟩
  | case5 a as b bs h1 h2 ih =>
    simp only [mergeBoth, if_neg h1, if_neg h2]
    intro p hp
    rcases List.mem_cons.mp hp with rfl | hp
    · refine ⟨List.mem_cons_self a as, List.mem_cons_self b bs, ?_⟩
      have hn1 : ¬ Lex3 (keyOfLeft a) (keyOfRight b) := by
        rw [← lexLt_iff]; simpa using h1
      have hn2 : ¬ Lex3 (keyOfRight b) (keyOfLeft a) := by
        rw [← lexLt_iff]; simpa using h2
      exact lex3_eq_of_not_lt hn1 hn2
    · obtain ⟨hp1, hp2, hp3⟩ := ih p hp
      exact ⟨List.mem_cons_of_mem a hp1, List.mem_cons_of_mem b hp2, hp3⟩

theorem mergeBoth_complete (l1 l2 : List DocIndex)
    (h1 : List.Pairwise (fun x y => Lex3 (keyOfLeft x) (keyOfLeft y)) l1)
    (h2 : List.Pairwise (fun x y => Lex3 (keyOfRight x) (keyOfRight y)) l2)
    (x y : DocIndex) (hx : x ∈ l1) (hy : y ∈ l2)
    (hk : keyOfLeft x = keyOfRight y) : (x, y) ∈ mergeBoth l1 l2 := by
  induction l1, l2 using mergeBoth.induct with
  | case1 l2 => simp at hx
  | case2 => simp at hy
  | case3 a as b bs h ih =>
    have hab : Lex3 (keyOfLeft a) (keyOfRight b) := (lexLt_iff _ _).mp h
    simp only [mergeBoth, if_pos h]
    have hx' : x ∈ as := by
      rcases List.mem_cons.mp hx with rfl | hx'
      · exfalso
        rcases List.mem_cons.mp hy with rfl | hy'
        · exact lex3_irrefl _ (hk ▸ hab)
        · have hby : Lex3 (keyOfRight b) (keyOfRight y) :=
            List.rel_of_pairwise_cons h2 hy'
          rw [← hk] at hby
          exact lex3_asymm hab hby
      · exact hx'
    exact ih (List.Pairwise.sublist (List.sublist_cons_self a as) h1) h2 hx' hy
  | case4 a as b bs hlt h ih =>
    have hba : Lex3 (keyOfRight b) (keyOfLeft a) := (lexLt_iff _ _).mp h
    simp only [mergeBoth, if_neg hlt, if_pos h]
    have hy' : y ∈ bs := by
      rcases List.mem_cons.mp hy with rfl | hy'
      · exfalso
        rcases List.mem_cons.mp hx with rfl | hx'
        · exact lex3_irrefl _ (hk ▸ hba)
        · have hax : Lex3 (keyOfLeft a) (keyOfLeft x) :=
            List.rel_of_pairwise_cons h1 hx'
          rw [hk] at hax
          exact lex3_asymm hba hax
      · exact hy'
    exact ih h1 (List.Pairwise.sublist (List.sublist_cons_self b bs) h2) hx hy'
  | case5 a as b bs hlt1 hlt2 ih =>
    have hn1 : ¬ Lex3 (keyOfLeft a) (keyOfRight b) := by
      rw [← lexLt_iff]; simpa using hlt1
    have hn2 : ¬ Lex3 (keyOfRight b) (keyOfLeft a) := by
      rw [← lexLt_iff]; simpa using hlt2
    have hab : keyOfLeft a = keyOfRight b := lex3_eq_of_not_lt hn1 hn2
    simp only [mergeBoth, if_neg hlt1, if_neg hlt2]
    rcases List.mem_cons.mp hx with rfl | hx'
    · rcases List.mem_cons.mp hy with rfl | hy'
      · exact List.mem_cons_self _ _
      · exfalso
        have hby : Lex3 (keyOfRight b) (keyOfRight y) :=
          List.rel_of_pairwise_cons h2 hy'
        rw [← hk, ← hab] at hby
        exact lex3_irrefl _ hby
    · rcases List.mem_cons.mp hy with rfl | hy'
      · exfalso
        have hax : Lex3 (keyOfLeft a) (keyOfLeft x) :=
          List.rel_of_pairwise_cons h1 hx'
        rw [hab, hk] at hax
        exact lex3_irrefl _ hax
      · exact List.mem_cons_of_mem _ (ih
          (List.Pairwise.sublist (List.sublist_cons_self a as) h1)
          (List.Pairwise.sublist (List.sublist_cons_self b bs) h2) hx' hy')

theorem mergeBoth_firsts_sublist (l1 l2 : List DocIndex) :
    ((mergeBoth l1 l2).map Prod.fst).Sublist l1 := by
  induction l1, l2 using mergeBoth.induct with
  | case1 l2 => simp [mergeBoth]
  | case2 => simp [mergeBoth]
  | case3 a as b bs h ih =>
    simp only [mergeBoth, if_pos h]
    exact ih.cons a
  | case4 a as b bs h1 h2 ih =>
    simp only [mergeBoth, if_neg h1, if_pos h2]
    exact ih
  | case5 a as b bs h1 h2 ih =>
    simp only [mergeBoth, if_neg h1, if_neg h2, List.map_cons]
    exact ih.cons₂ a

theorem lex3_keyOfLeft_doc_le {a b : DocIndex}
    (h : Lex3 (keyOfLeft a) (keyOfLeft b)) : a.document_id ≤ b.document_id := by
  obtain ⟨a1, a2, a3⟩ := a
  obtain ⟨b1, b2, b3⟩ := b
  simp only [Lex3, keyOfLeft] at *
  omega

theorem chain_le_flatMap_pairs (ps : List (DocIndex × DocIndex))
    (heq : ∀ p ∈ ps, p.1.document_id = p.2.document_id)
    (hmono : List.Chain' (fun p q => p.1.document_id ≤ q.1.document_id) ps) :
    List.Chain' (· ≤ ·)
      ((ps.flatMap (fun ab => [ab.1, ab.2])).map DocIndex.document_id) := by
  induction ps with
  | nil => simp
  | cons p rest ih =>
    have hpp : p.1.document_id = p.2.document_id := heq p (List.mem_cons_self p rest)
    have heq2 : ∀ q ∈ rest, q.1.document_id = q.2.document_id :=
      fun q hq => heq q (List.mem_cons_of_mem p hq)
    have hmono2 := hmono.tail
    match rest with
    | [] =>
      simp only [List.flatMap_cons, List.flatMap_nil, List.append_nil, List.map_cons,
        List.map_nil]
      exact List.chain'_pair.mpr (le_of_eq hpp)
    | q :: rest2 =>
      have hpq : p.1.document_id ≤ q.1.document_id :=
        (List.chain'_cons.mp hmono).1
      have ihq := ih heq2 hmono2
      simp only [List.flatMap_cons, List.map_append, List.map_cons, List.map_nil,
        List.cons_append, List.nil_append] at ihq ⊢
      rw [List.chain'_cons, List.chain'_cons]
      refine ⟨le_of_eq hpp, ?_, ?_⟩
      · omega
      · rw [List.chain'_cons] at ihq ⊢
        exact ihq

theorem pairwise_keyOfLeft_of_postingsSorted {l : List DocIndex}
    (h : postingsSorted l) :
    List.Pairwise (fun x y => Lex3 (keyOfLeft x) (keyOfLeft y)) l :=
  h.imp (fun hab => (lex3_keyOfLeft_shift _ _).mpr hab)

theorem pairwise_keyOfRight_of_postingsSorted {l : List DocIndex}
    (h : postingsSorted l) :
    List.Pairwise (fun x y => Lex3 (keyOfRight x) (keyOfRight y)) l :=
  h.imp (fun hab => by rwa [keyOfRight_eq_tripleOf, keyOfRight_eq_tripleOf])

theorem mergeBoth_pairs_doc_eq (l1 l2 : List DocIndex) :
    ∀ p ∈ mergeBoth l1 l2, p.1.document_id = p.2.document_id :=
  fun p hp => doc_eq_of_keyEq (mergeBoth_sound l1 l2 p hp).2.2

theorem pairwise_fst_of_map {R : DocIndex → DocIndex → Prop}
    {l : List (DocIndex × DocIndex)}
    (h : List.Pairwise R (l.map Prod.fst)) :
    List.Pairwise (fun p q => R p.1 q.1) l := by
  induction l with
  | nil => exact List.Pairwise.nil
  | cons p rest ih =>
    rw [List.map_cons, List.pairwise_cons] at h
    exact List.Pairwise.cons
      (fun q hq => h.1 q.1 (List.mem_map_of_mem Prod.fst hq)) (ih h.2)

theorem mergeBoth_pairs_doc_mono (l1 l2 : List DocIndex)
    (h1 : postingsSorted l1) :
    List.Chain' (fun p q => p.1.document_id ≤ q.1.document_id) (mergeBoth l1 l2) := by
  have hfirsts : List.Pairwise (fun x y => Lex3 (keyOfLeft x) (keyOfLeft y))
      ((mergeBoth l1 l2).map Prod.fst) :=
    (pairwise_keyOfLeft_of_postingsSorted h1).sublist (mergeBoth_firsts_sublist l1 l2)
  have hp := pairwise_fst_of_map hfirsts
  exact (hp.imp (fun hab => lex3_keyOfLeft_doc_le hab)).chain'

theorem mergeBoth_proj_chain_le (l1 l2 : List DocIndex)
    (h1 : postingsSorted l1) :
    List.Chain' (· ≤ ·)
      (((mergeBoth l1 l2).flatMap (fun ab => [ab.1, ab.2])).map DocIndex.document_id) :=
  chain_le_flatMap_pairs _ (mergeBoth_pairs_doc_eq l1 l2) (mergeBoth_pairs_doc_mono l1 l2 h1)

/-- The docid list computed by the phrase branch before the final
`SetBuf::new` assertion. -/
def phraseDocids (first second : List DocIndex) : List Nat :=
  dedupAdjacent (((mergeBoth first second).flatMap (fun ab => [ab.1, ab.2])).map
    DocIndex.document_id)

theorem executeQuery_phrase_ok (store : Store) (id : Nat) (pb : Bool)
    (w1 w2 : String) (o1 o2 : Option (List DocIndex))
    (e1 : store.postingsFn w1 = Except.ok o1) (e2 : store.postingsFn w2 = Except.ok o2)
    (h1 : postingsSorted (o1.getD [])) :
    executeQuery store ⟨id, pb, QueryKind.Phrase [w1, w2]⟩ =
      Except.ok (phraseDocids (o1.getD []) (o2.getD [])) := by
  have hch := mergeBoth_proj_chain_le (o1.getD []) (o2.getD []) h1
  have hsorted := sorted_dedupAdjacent _ hch
  simp only [executeQuery, postingsOrEmpty, e1, e2, Except.map, bind, Except.bind,
    phraseDocids]
  rw [SetBufNew, if_pos (List.chain'_iff_pairwise.mpr hsorted)]

theorem mem_phraseDocids (first second : List DocIndex)
    (h1 : postingsSorted first) (h2 : postingsSorted second) (d : Nat) :
    d ∈ phraseDocids first second ↔
      ∃ a idx, (⟨d, a, idx⟩ : DocIndex) ∈ first ∧
        (⟨d, a, idx + 1⟩ : DocIndex) ∈ second := by
  rw [phraseDocids, mem_dedupAdjacent]
  simp only [List.mem_map, List.mem_flatMap, List.mem_cons, List.not_mem_nil, or_false]
  constructor
  · rintro ⟨x, ⟨p, hp, hx⟩, rfl⟩
    obtain ⟨hp1, hp2, hpk⟩ := mergeBoth_sound first second p hp
    have hdoc : p.1.document_id = p.2.document_id := doc_eq_of_keyEq hpk
    have hsecond : p.2 = ⟨p.1.document_id, p.1.attr, p.1.word_index + 1⟩ :=
      docIndex_of_keyEq hpk
    rcases hx with rfl | rfl
    · refine ⟨p.1.attr, p.1.word_index, ?_, ?_⟩
      · exact hp1
      · rw [← hsecond]; exact hp2
    · refine ⟨p.2.attr, p.2.word_index - 1, ?_, ?_⟩
      · have : (⟨p.2.document_id, p.2.attr, p.2.word_index - 1⟩ : DocIndex) = p.1 := by
          rw [hsecond]; simp [← hdoc]
        rw [this]; exact hp1
      · have : (⟨p.2.document_id, p.2.attr, p.2.word_index - 1 + 1⟩ : DocIndex) = p.2 := by
          rw [hsecond]; simp
        rw [this]; exact hp2
  · rintro ⟨a, idx, hf, hs⟩
    have hk : keyOfLeft ⟨d, a, idx⟩ = keyOfRight ⟨d, a, idx + 1⟩ := rfl
    have hmem := mergeBoth_complete first second
      (pairwise_keyOfLeft_of_postingsSorted h1)
      (pairwise_keyOfRight_of_postingsSorted h2) _ _ hf hs hk
    exact ⟨⟨d, a, idx⟩, ⟨(⟨d, a, idx⟩, ⟨d, a, idx + 1⟩), hmem, Or.inl rfl⟩, rfl⟩

theorem sorted_phraseDocids (first second : List DocIndex)
    (h1 : postingsSorted first) :
    List.Sorted (· < ·) (phraseDocids first second) :=
  sorted_dedupAdjacent _ (mergeBoth_proj_chain_le first second h1)

/-- Claim C3: evaluating a two-word `Phrase` leaf returns exactly the
ascending set of document ids that carry the first word at some
`(document, attribute, word_index)` and the second word at the same
document and attribute with `word_index + 1`, computed by the sorted
merge-join that increments the first word's `word_index` by one before
comparison; a `Phrase` leaf whose word list has a length other than two
evaluates to the empty set. -/
theorem phrase_two_word_semantics (store : Store) (id : Nat) (pb : Bool)
    (w1 w2 : String) (o1 o2 : Option (List DocIndex))
    (e1 : store.postingsFn w1 = Except.ok o1) (e2 : store.postingsFn w2 = Except.ok o2)
    (h1 : postingsSorted (o1.getD [])) (h2 : postingsSorted (o2.getD [])) :
    (∃ s, executeQuery store ⟨id, pb, QueryKind.Phrase [w1, w2]⟩ = Except.ok s ∧
      List.Sorted (· < ·) s ∧
      (∀ d, d ∈ s ↔ ∃ a idx, (⟨d, a, idx⟩ : DocIndex) ∈ o1.getD [] ∧
        (⟨d, a, idx + 1⟩ : DocIndex) ∈ o2.getD [])) ∧
    (∀ ws, ws.length ≠ 2 →
      executeQuery store ⟨id, pb, QueryKind.Phrase ws⟩ = Except.ok []) := by
  constructor
  · exact ⟨phraseDocids _ _, executeQuery_phrase_ok store id pb w1 w2 o1 o2 e1 e2 h1,
      sorted_phraseDocids _ _ h1, fun d => mem_phraseDocids _ _ h1 h2 d⟩
  · intro ws hws
    rcases ws with _ | ⟨a, _ | ⟨b, _ | ⟨c, rest⟩⟩⟩
    · rfl
    · rfl
    · simp at hws
    · rfl

/-- A concrete snapshot used to witness the phrase-evaluation theorems:
`new` occurs in document 7 at word index 2 and `york` at word index 3. -/
def cstoreC3 : Store where
  wordsSet := ["new", "york"]
  postingsFn := fun w =>
    if w = "new" then Except.ok (some [⟨7, 0, 2⟩])
    else if w = "york" then Except.ok (some [⟨7, 0, 3⟩])
    else Except.ok none
  synonymsFn := fun _ => none

/-- Witness for claim C3 at a concrete snapshot: the phrase `new york`
yields a set containing document 7. -/
theorem phrase_two_word_semantics_witness :
    ∃ s, executeQuery cstoreC3 ⟨0, false, QueryKind.Phrase ["new", "york"]⟩ =
      Except.ok s ∧ 7 ∈ s := by
  obtain ⟨⟨s, hs, hsort, hmem⟩, hskip⟩ :=
    phrase_two_word_semantics cstoreC3 0 false "new" "york"
      (some [⟨7, 0, 2⟩]) (some [⟨7, 0, 3⟩]) rfl rfl
      (by simp [postingsSorted]) (by simp [postingsSorted])
  exact ⟨s, hs, (hmem 7).mpr ⟨0, 2, by simp, by simp⟩⟩

/-- Claim C9: the assertion `SetBuf::new(docids).unwrap()` in the phrase
branch never panics — for postings lists sorted by the lexicographic
triple, the document ids projected from the merge-join pairs form a
non-decreasing sequence, the single `dedup` pass leaves a strictly
ascending one, so `SetBuf::new` accepts it and evaluation never returns
the modelled panic. -/
theorem phrase_assertion_never_panics (store : Store) (id : Nat) (pb : Bool)
    (w1 w2 : String) (o1 o2 : Option (List DocIndex))
    (e1 : store.postingsFn w1 = Except.ok o1) (e2 : store.postingsFn w2 = Except.ok o2)
    (h1 : postingsSorted (o1.getD [])) (h2 : postingsSorted (o2.getD [])) :
    List.Chain' (· ≤ ·) (((mergeBoth (o1.getD []) (o2.getD [])).flatMap
      (fun ab => [ab.1, ab.2])).map DocIndex.document_id) ∧
    SetBufNew (phraseDocids (o1.getD []) (o2.getD [])) =
      some (phraseDocids (o1.getD []) (o2.getD [])) ∧
    executeQuery store ⟨id, pb, QueryKind.Phrase [w1, w2]⟩ ≠
      Except.error unwrapPanicMsg := by
  refine ⟨mergeBoth_proj_chain_le _ _ h1, ?_, ?_⟩
  · rw [SetBufNew, if_pos (List.chain'_iff_pairwise.mpr (sorted_phraseDocids _ _ h1))]
  · rw [executeQuery_phrase_ok store id pb w1 w2 o1 o2 e1 e2 h1]
    intro hcontra
    exact Except.noConfusion hcontra

/-- Witness for claim C9 at a concrete snapshot. -/
theorem phrase_assertion_never_panics_witness :
    executeQuery cstoreC3 ⟨1, false, QueryKind.Phrase ["new", "york"]⟩ ≠
      Except.error unwrapPanicMsg :=
  (phrase_assertion_never_panics cstoreC3 1 false "new" "york"
    (some [⟨7, 0, 2⟩]) (some [⟨7, 0, 3⟩]) rfl rfl
    (by simp [postingsSorted]) (by simp [postingsSorted])).2.2

/-! ## Sortedness of every candidate set -/

theorem except_map_ok {α β : Type} {f : α → β} {e : Except Err α} {s : β}
    (h : Except.map f e = Except.ok s) : ∃ x, e = Except.ok x ∧ s = f x := by
  cases e with
  | error er => simp [Except.map] at h
  | ok x =>
    simp only [Except.map] at h
    cases h
    exact ⟨x, rfl, rfl⟩

theorem setBufNew_some {l s : List Nat} (h : SetBufNew l = some s) :
    s = l ∧ List.Sorted (· < ·) s := by
  rw [SetBufNew] at h
  by_cases hc : List.Chain' (· < ·) l
  · rw [if_pos hc] at h
    cases h
    exact ⟨rfl, List.chain'_iff_pairwise.mp hc⟩
  · rw [if_neg hc] at h
    cases h

theorem executeQuery_sorted (store : Store) (q : Query) (s : List Nat)
    (h : executeQuery store q = Except.ok s) : List.Sorted (· < ·) s := by
  obtain ⟨id, pb, kind⟩ := q
  cases kind with
  | Tolerant word =>
    simp only [executeQuery] at h
    obtain ⟨x, hx, rfl⟩ := except_map_ok h
    exact sorted_setFromDirty x
  | Exact word =>
    simp only [executeQuery] at h
    obtain ⟨x, hx, rfl⟩ := except_map_ok h
    exact sorted_setFromDirty x
  | Phrase words =>
    simp only [executeQuery] at h
    rcases words with _ | ⟨a, _ | ⟨b, _ | ⟨c, rest⟩⟩⟩
    · cases h; exact List.sorted_nil
    · cases h; exact List.sorted_nil
    · cases hp1 : store.postingsFn a with
      | error e =>
        simp only [postingsOrEmpty, hp1, Except.map, bind, Except.bind] at h
        cases h
      | ok o1 =>
        cases hp2 : store.postingsFn b with
        | error e =>
          simp only [postingsOrEmpty, hp1, hp2, Except.map, bind, Except.bind] at h
          cases h
        | ok o2 =>
          simp only [postingsOrEmpty, hp1, hp2, Except.map, bind, Except.bind] at h
          cases hsb : SetBufNew (dedupAdjacent
            (((mergeBoth (o1.getD []) (o2.getD [])).flatMap
              (fun ab => [ab.1, ab.2])).map DocIndex.document_id)) with
          | none => rw [hsb] at h; cases h
          | some s2 =>
            rw [hsb] at h
            cases h
            exact (setBufNew_some hsb).2
    · cases h; exact List.sorted_nil

theorem evalOperations_mem (store : Store) (ops : List Operation)
    (results : List (List Nat)) (h : evalOperations store ops = Except.ok results) :
    ∀ r ∈ results, ∃ op ∈ ops, evalOperation store op = Except.ok r := by
  induction ops generalizing results with
  | nil =>
    simp only [evalOperations] at h
    cases h
    simp
  | cons op rest ih =>
    simp only [evalOperations] at h
    cases he : evalOperation store op with
    | error e => rw [he] at h; simp [bind, Except.bind] at h
    | ok r0 =>
      rw [he] at h
      cases hrest : evalOperations store rest with
      | error e => rw [hrest] at h; simp [bind, Except.bind] at h
      | ok rs =>
        rw [hrest] at h
        simp only [bind, Except.bind] at h
        cases h
        intro r hr
        rcases List.mem_cons.mp hr with rfl | hr
        · exact ⟨op, List.mem_cons_self op rest, he⟩
        · obtain ⟨op', hop', hev⟩ := ih rs hrest r hr
          exact ⟨op', List.mem_cons_of_mem op hop', hev⟩

theorem evalOperation_sorted (store : Store) :
    ∀ op s, evalOperation store op = Except.ok s → List.Sorted (· < ·) s := by
  have main : ∀ n op, sizeOf op ≤ n → ∀ s,
      evalOperation store op = Except.ok s → List.Sorted (· < ·) s := by
    intro n
    induction n with
    | zero =>
      intro op hop
      exfalso
      cases op <;> simp at hop
    | succ n ih =>
      intro op hop s h
      match op with
      | Operation.Query q =>
        simp only [evalOperation] at h
        exact executeQuery_sorted store q s h
      | Operation.And ops =>
        simp only [evalOperation] at h
        cases hres : evalOperations store ops with
        | error e => rw [hres] at h; simp [bind, Except.bind] at h
        | ok results =>
          rw [hres] at h
          simp only [bind, Except.bind] at h
          cases h
          apply sorted_multiIntersection
          intro l hl
          obtain ⟨op', hop', hev⟩ := evalOperations_mem store ops results hres l hl
          have hsize : sizeOf op' ≤ n := by
            have h1 : sizeOf op' < sizeOf ops := List.sizeOf_lt_of_mem hop'
            have h2 : sizeOf (Operation.And ops) = 1 + sizeOf ops := by simp
            omega
          exact ih op' hsize l hev
      | Operation.Or ops =>
        simp only [evalOperation] at h
        cases hres : evalOperations store ops with
        | error e => rw [hres] at h; simp [bind, Except.bind] at h
        | ok results =>
          rw [hres] at h
          simp only [bind, Except.bind] at h
          cases h
          exact sorted_setFromDirty _
  intro op
  exact main (sizeOf op) op (le_refl _)

/-- Claim C6: for every query tree and snapshot, the candidate set
returned by `traverse_query_tree` is strictly ascending and
duplicate-free, and so is the set produced at every node of the traversal
(`And` via ordered intersection, `Or` via concatenation followed by
sort-and-dedup, and every leaf kind). -/
theorem candidate_sets_sorted (store : Store) :
    (∀ op s, evalOperation store op = Except.ok s →
      List.Sorted (· < ·) s ∧ List.Nodup s) ∧
    (∀ tree r, traverse_query_tree store tree = Except.ok r →
      List.Sorted (· < ·) r.docids ∧ List.Nodup r.docids) := by
  constructor
  · intro op s h
    have hs := evalOperation_sorted store op s h
    exact ⟨hs, hs.nodup⟩
  · intro tree r h
    rw [traverse_query_tree] at h
    obtain ⟨x, hx, rfl⟩ := except_map_ok h
    have hs := evalOperation_sorted store tree x hx
    exact ⟨hs, hs.nodup⟩

/-- A concrete snapshot with a single posting: `hello` occurs in
document 7. -/
def hstore : Store where
  wordsSet := ["hello"]
  postingsFn := fun w =>
    if w = "hello" then Except.ok (some [⟨7, 0, 0⟩]) else Except.ok none
  synonymsFn := fun _ => none

/-- Witness for claim C6 at a concrete snapshot and tree. -/
theorem candidate_sets_sorted_witness :
    ∃ s, evalOperation hstore (Operation.Or [Operation.Query (Query.exact 0 false "hello"),
      Operation.Query (Query.exact 1 false "hello")]) = Except.ok s ∧
      List.Sorted (· < ·) s ∧ List.Nodup s := by
  have h := (candidate_sets_sorted hstore).1
    (Operation.Or [Operation.Query (Query.exact 0 false "hello"),
      Operation.Query (Query.exact 1 false "hello")]) [7] rfl
  exact ⟨[7], rfl, h⟩

/-! ## Leaf evaluation ignores the prefix flag on Exact; the queries map -/

/-- Claim C10: evaluation of an `Exact` leaf is independent of its prefix
flag — the evaluator always builds the non-prefix exact DFA (the source
marks this with a TODO), so for every word and snapshot the two leaves
yield identical document-id sets. -/
theorem exact_leaf_ignores_pfx_flag (store : Store) (id : Nat) (w : String) :
    executeQuery store ⟨id, true, QueryKind.Exact w⟩ =
      executeQuery store ⟨id, false, QueryKind.Exact w⟩ := rfl

/-- Claim C1 (refuted by the code): `traverse_query_tree` is specified to
return a leaf-to-postings mapping for downstream ranking, but the single
insertion into that map is commented out in the source, so the returned
`queries` map is empty even on a traversal whose leaf did fetch postings
(document 7 is returned in `docids`). -/
theorem queries_map_always_empty :
    traverse_query_tree hstore (Operation.Query (Query.exact 0 false "hello")) =
      Except.ok ⟨[7], []⟩ := rfl

mutual

/-- Does the tree contain the given query leaf? -/
def containsQuery (q : Query) : Operation → Bool
  | Operation.And ops => containsQueryList q ops
  | Operation.Or ops => containsQueryList q ops
  | Operation.Query q2 => decide (q2 = q)

/-- Does any tree in the list contain the given query leaf? -/
def containsQueryList (q : Query) : List Operation → Bool
  | [] => false
  | op :: ops => containsQuery q op || containsQueryList q ops

end

/-- A concrete snapshot whose synonyms store maps the phrase `big apple`
to the synonym list `[["bigapple"]]`. -/
def cstoreC2 : Store where
  wordsSet := ["bigapple"]
  postingsFn := fun w =>
    if w = "bigapple" then Except.ok (some [⟨7, 0, 0⟩]) else Except.ok none
  synonymsFn := fun w =>
    if w = "big apple" then some [["bigapple"]] else none

/-- The tree actually built for the query `big apple` over `cstoreC2`. -/
def bigAppleTree : Operation :=
  Operation.Or [Operation.And [Operation.Query (Query.tolerant 0 false "big"),
    Operation.Query (Query.tolerant 1 true "apple")],
    Operation.Query (Query.exact 0 true "bigapple")]

/-- Claim C2 (refuted by the code): the synonyms store maps the joined
group `big apple` to `[["bigapple"]]`, so the claim requires the builder
to emit the collapsed synonym alternative — the `Exact` leaf `bigapple`
with the group id 0 and prefix `false` — among the group's `Or`
alternatives; `fetch_synonyms` is stubbed to return no synonyms, so the
built tree contains no such leaf (the `Exact bigapple` that does appear is
the n-gram compaction, carrying prefix `true`). -/
theorem synonym_alternatives_not_emitted :
    cstoreC2.synonymsFn "big apple" = some [["bigapple"]] ∧
    create_query_tree cstoreC2 "big apple" = Except.ok bigAppleTree ∧
    containsQuery (Query.exact 0 false "bigapple") bigAppleTree = false := by
  refine ⟨rfl, rfl, ?_⟩
  simp [bigAppleTree, containsQuery, containsQueryList, Query.exact, Query.tolerant]

mutual

/-- The combinator-arity invariant of the specification: no `And` or `Or`
node has fewer than two children. -/
def wfOp : Operation → Bool
  | Operation.And ops => decide (2 ≤ ops.length) && wfOps ops
  | Operation.Or ops => decide (2 ≤ ops.length) && wfOps ops
  | Operation.Query _ => true

/-- The combinator-arity invariant for every tree in a list. -/
def wfOps : List Operation → Bool
  | [] => true
  | op :: ops => wfOp op && wfOps ops

end

/-- Claim C7 counterexample: on the empty query string the builder
returns the root `Or` with zero children — `create_operation` wraps the
empty interpretation list — violating the no-combinator-below-two-children
invariant that the claim extends to every query string. -/
theorem empty_query_yields_childless_or :
    create_query_tree hstore "" = Except.ok (Operation.Or []) ∧
    wfOp (Operation.Or []) = false := by
  refine ⟨rfl, ?_⟩
  simp [wfOp, wfOps]

/-! ## Well-formedness of the built tree (combinator arities) -/

theorem mapM_ok_inv {α β : Type} (f : α → Except Err β) :
    ∀ (l : List α) (ys : List β), l.mapM f = Except.ok ys →
      ys.length = l.length ∧ ∀ y ∈ ys, ∃ x ∈ l, f x = Except.ok y := by
  intro l
  induction l with
  | nil =>
    intro ys h
    simp only [List.mapM_nil, pure, Except.pure] at h
    cases h
    simp
  | cons a rest ih =>
    intro ys h
    rw [List.mapM_cons] at h
    cases ha : f a with
    | error e => rw [ha] at h; simp [bind, Except.bind] at h
    | ok y0 =>
      rw [ha] at h
      cases hrest : rest.mapM f with
      | error e => rw [hrest] at h; simp [bind, Except.bind] at h
      | ok ys0 =>
        rw [hrest] at h
        simp only [bind, Except.bind, pure, Except.pure] at h
        cases h
        obtain ⟨hlen, hmem⟩ := ih ys0 hrest
        refine ⟨by simp [hlen], ?_⟩
        intro y hy
        rcases List.mem_cons.mp hy with rfl | hy
        · exact ⟨a, List.mem_cons_self a rest, ha⟩
        · obtain ⟨x, hx, hfx⟩ := hmem y hy
          exact ⟨x, List.mem_cons_of_mem a hx, hfx⟩

theorem mapM_ok_of_forall {α β : Type} (f : α → Except Err β) :
    ∀ l : List α, (∀ x ∈ l, ∃ y, f x = Except.ok y) →
      ∃ ys, l.mapM f = Except.ok ys ∧ ys.length = l.length := by
  intro l
  induction l with
  | nil => intro _; exact ⟨[], rfl, rfl⟩
  | cons a rest ih =>
    intro hall
    obtain ⟨y0, hy0⟩ := hall a (List.mem_cons_self a rest)
    obtain ⟨ys0, hys0, hlen⟩ := ih (fun x hx => hall x (List.mem_cons_of_mem a hx))
    refine ⟨y0 :: ys0, ?_, by simp [hlen]⟩
    rw [List.mapM_cons, hy0, hys0]
    rfl

theorem wfOps_iff (ops : List Operation) :
    wfOps ops = true ↔ ∀ op ∈ ops, wfOp op = true := by
  induction ops with
  | nil => simp [wfOps]
  | cons a rest ih =>
    simp only [wfOps, Bool.and_eq_true, ih]
    constructor
    · rintro ⟨h1, h2⟩ op hop
      rcases List.mem_cons.mp hop with rfl | hop
      · exact h1
      · exact h2 op hop
    · intro h
      exact ⟨h a (List.mem_cons_self a rest),
        fun op hop => h op (List.mem_cons_of_mem a hop)⟩

theorem create_operation_wf (ops : List Operation)
    (f : List Operation → Operation)
    (hne : ops ≠ []) (hwf : wfOps ops = true)
    (hf : f = Operation.And ∨ f = Operation.Or) :
    wfOp (create_operation ops f) = true := by
  match ops with
  | [] => exact absurd rfl hne
  | [a] =>
    have := (wfOps_iff [a]).mp hwf a (List.mem_cons_self a [])
    simpa [create_operation] using this
  | a :: b :: rest =>
    have hlen : 2 ≤ (a :: b :: rest).length := by simp
    rcases hf with rfl | rfl
    · simp only [create_operation, wfOp, Bool.and_eq_true, decide_eq_true_eq]
      exact ⟨hlen, hwf⟩
    · simp only [create_operation, wfOp, Bool.and_eq_true, decide_eq_true_eq]
      exact ⟨hlen, hwf⟩

theorem buildGroup_wf (store : Store) (is_last : Bool)
    (gr : List (Nat × String)) (op : Operation)
    (hne : gr ≠ []) (h : buildGroup store is_last gr = Except.ok op) :
    wfOp op = true := by
  match gr with
  | [] => exact absurd rfl hne
  | [(id, word)] =>
    simp only [buildGroup, fetch_synonyms] at h
    cases hsp : split_best_frequency store word with
    | error e => rw [hsp] at h; simp [bind, Except.bind] at h
    | ok phrase =>
      rw [hsp] at h
      simp only [bind, Except.bind, List.map_nil, List.nil_append] at h
      cases h
      rcases phrase with _ | p
      · simp [create_operation, wfOp]
      · simp [create_operation, wfOp, wfOps]
  | (id, w) :: g2 :: rest =>
    simp only [buildGroup, fetch_synonyms, bind, Except.bind, List.map_nil,
      List.nil_append] at h
    cases h
    rfl

theorem isLastTag_length (l : List α) : (isLastTag l).length = l.length := by
  induction l with
  | nil => rfl
  | cons a rest ih =>
    match rest with
    | [] => rfl
    | b :: rest2 =>
      simp only [isLastTag, List.length_cons] at ih ⊢
      omega

theorem isLastTag_mem {l : List α} {b : Bool} {a : α}
    (h : (b, a) ∈ isLastTag l) : a ∈ l := by
  induction l with
  | nil => simp [isLastTag] at h
  | cons x rest ih =>
    match rest with
    | [] =>
      simp only [isLastTag, List.mem_singleton, Prod.mk.injEq] at h
      simp [h.2]
    | y :: rest2 =>
      simp only [isLastTag, List.mem_cons, Prod.mk.injEq] at h
      rcases h with ⟨h1, h2⟩ | h
      · simp [h2]
      · exact List.mem_cons_of_mem x (ih h)

/-- The interpretation with the size-`g` group at offset `i` and every
other word as its own singleton group (§4.D of the spec, and the
`before/group/after` construction of the source). -/
def interpAt (words : List (Nat × String)) (g i : Nat) :
    List (List (Nat × String)) :=
  (words.take i).map (fun w => [w]) ++ [(words.drop i).take g] ++
    (words.drop (i + g)).map (fun w => [w])

theorem enum_windowsL_map {β : Type} (g : Nat) (l : List (Nat × String))
    (f : Nat × List (Nat × String) → β) :
    ((windowsL g l).enum).map f =
      (List.range (l.length + 1 - g)).map (fun i => f (i, (l.drop i).take g)) := by
  rw [windowsL, List.enum_eq_zip_range, List.length_map, List.length_range]
  have hz : (List.range (l.length + 1 - g)).zip
      ((List.range (l.length + 1 - g)).map (fun i => (l.drop i).take g)) =
      (List.range (l.length + 1 - g)).map (fun i => (i, (l.drop i).take g)) := by
    have hzm := List.zip_map' id (fun i => (l.drop i).take g)
      (List.range (l.length + 1 - g))
    rw [List.map_id] at hzm
    simpa using hzm
  rw [hz, List.map_map]
  rfl

theorem interpretations_eq (words : List (Nat × String)) (hw : words ≠ []) :
    interpretations words =
      [interpAt words 1 0] ++
        (List.range (words.length + 1 - 2)).map (interpAt words 2) ++
        (List.range (words.length + 1 - 3)).map (interpAt words 3) := by
  have h13 : List.range' 1 MAX_NGRAM = [1, 2, 3] := by decide
  rw [interpretations, h13]
  simp only [List.flatMap_cons, List.flatMap_nil, List.append_nil, if_pos,
    reduceIte]
  have hb : ∀ g, ((windowsL g words).enum).map (fun p =>
      (words.take p.1).map (fun w => [w]) ++ [p.2] ++
        (words.drop (p.1 + g)).map (fun w => [w])) =
      (List.range (words.length + 1 - g)).map (interpAt words g) := by
    intro g
    rw [enum_windowsL_map]
    rfl
  rw [hb 1, hb 2, hb 3]
  have hn : 1 ≤ words.length := by
    cases words with
    | nil => exact absurd rfl hw
    | cons a rest => simp
  have ht : (List.range (words.length + 1 - 1)).take 1 = [0] := by
    have hlen : words.length + 1 - 1 = (words.length - 1) + 1 := by omega
    rw [hlen, List.range_succ_eq_map]
    rfl
  rw [← List.map_take, ht]
  rfl

theorem take_drop_ne_nil {g i : Nat} {l : List (Nat × String)}
    (hg : 1 ≤ g) (hi : i < l.length) : (l.drop i).take g ≠ [] := by
  intro hcon
  have hc := congrArg List.length hcon
  rw [List.length_take, List.length_drop] at hc
  simp at hc
  omega

theorem interpAt_facts {words : List (Nat × String)} {g i : Nat}
    (hg : 1 ≤ g) (hi : i < words.length) :
    interpAt words g i ≠ [] ∧ ∀ gr ∈ interpAt words g i, gr ≠ [] := by
  constructor
  · have hm : (words.drop i).take g ∈ interpAt words g i := by
      simp [interpAt]
    exact List.ne_nil_of_mem hm
  · intro gr hgr
    simp only [interpAt, List.mem_append, List.mem_map, List.mem_singleton] at hgr
    rcases hgr with (⟨w, hw2, rfl⟩ | rfl) | ⟨w, hw2, rfl⟩
    · simp
    · exact take_drop_ne_nil hg hi
    · simp

theorem mem_interpretations_facts {words : List (Nat × String)} (hw : words ≠ [])
    {interp : List (List (Nat × String))} (h : interp ∈ interpretations words) :
    interp ≠ [] ∧ ∀ gr ∈ interp, gr ≠ [] := by
  have hn : 1 ≤ words.length := by
    cases words with
    | nil => exact absurd rfl hw
    | cons a rest => simp
  rw [interpretations_eq words hw] at h
  simp only [List.mem_append, List.mem_singleton, List.mem_map,
    List.mem_range] at h
  rcases h with (rfl | ⟨i, hi, rfl⟩) | ⟨i, hi, rfl⟩
  · exact interpAt_facts (by omega) (by omega)
  · exact interpAt_facts (by omega) (by omega)
  · exact interpAt_facts (by omega) (by omega)

theorem buildInterp_wf (store : Store) (groups : List (List (Nat × String)))
    (op : Operation) (hne : groups ≠ []) (hgr : ∀ g ∈ groups, g ≠ [])
    (h : buildInterp store groups = Except.ok op) : wfOp op = true := by
  simp only [buildInterp] at h
  cases hres : (isLastTag groups).mapM (fun p => buildGroup store p.1 p.2) with
  | error e => rw [hres] at h; simp [bind, Except.bind] at h
  | ok ops =>
    rw [hres] at h
    simp only [bind, Except.bind, pure, Except.pure] at h
    cases h
    obtain ⟨hlen, hmem⟩ := mapM_ok_inv _ _ _ hres
    apply create_operation_wf _ _ ?_ ?_ (Or.inl rfl)
    · intro hcon
      rw [hcon] at hlen
      rw [isLastTag_length] at hlen
      exact hne (List.length_eq_zero.mp hlen.symm)
    · rw [wfOps_iff]
      intro o ho
      obtain ⟨⟨b, g⟩, hbg, hbuild⟩ := hmem o ho
      exact buildGroup_wf store b g o (hgr g (isLastTag_mem hbg)) hbuild

/-- Claim C7 (amended): for every query string whose tokenization is
nonempty, the tree returned by `create_query_tree` contains no `And` or
`Or` node with fewer than two children — any combinator that would have
exactly one child is collapsed to that child.  (The empty tokenization is
the exception recorded by the counterexample: it yields the root
`Or []`.) -/
theorem no_single_child_combinators (store : Store) (q : String) (t : Operation)
    (hne : tokenize q ≠ []) (h : create_query_tree store q = Except.ok t) :
    wfOp t = true := by
  simp only [create_query_tree] at h
  cases hres : (interpretations (tokenize q)).mapM (buildInterp store) with
  | error e => rw [hres] at h; simp [bind, Except.bind] at h
  | ok ngrams =>
    rw [hres] at h
    simp only [bind, Except.bind, pure, Except.pure] at h
    cases h
    obtain ⟨hlen, hmem⟩ := mapM_ok_inv _ _ _ hres
    apply create_operation_wf _ _ ?_ ?_ (Or.inr rfl)
    · intro hcon
      rw [hcon] at hlen
      have h0 : interpretations (tokenize q) = [] := List.length_eq_zero.mp hlen.symm
      rw [interpretations_eq (tokenize q) hne] at h0
      simp at h0
    · rw [wfOps_iff]
      intro o ho
      obtain ⟨interp, hinterp, hbuild⟩ := hmem o ho
      obtain ⟨hne2, hgr⟩ := mem_interpretations_facts hne hinterp
      exact buildInterp_wf store interp o hne2 hgr hbuild

/-- Witness for the amended claim C7: the one-word query `ab` over a
concrete snapshot builds a single collapsed leaf, which satisfies the
invariant. -/
theorem no_single_child_combinators_witness :
    wfOp (Operation.Query (Query.tolerant 0 true "ab")) = true :=
  no_single_child_combinators hstore "ab" _ (by decide) rfl

/-! ## The n-gram interpretation count -/

theorem splitLoop_ok (store : Store)
    (hok : ∀ u, ∃ v, store.postingsFn u = Except.ok v) (w : List Char) :
    ∀ ps best, ∃ r, splitLoop store w ps best = Except.ok r := by
  intro ps
  induction ps with
  | nil => intro best; exact ⟨best, rfl⟩
  | cons i is ih =>
    intro best
    obtain ⟨v1, hv1⟩ := hok (String.mk (w.take i))
    obtain ⟨v2, hv2⟩ := hok (String.mk (w.drop i))
    simp only [splitLoop, freqOf, hv1, hv2, Except.map, bind, Except.bind]
    exact ih _

theorem split_best_frequency_ok (store : Store)
    (hok : ∀ u, ∃ v, store.postingsFn u = Except.ok v) (word : String) :
    ∃ r, split_best_frequency store word = Except.ok r := by
  obtain ⟨r, hr⟩ := splitLoop_ok store hok word.data (List.range' 1 (word.length - 1)) none
  rw [split_best_frequency, hr]
  exact ⟨_, rfl⟩

theorem buildGroup_ok (store : Store)
    (hok : ∀ u, ∃ v, store.postingsFn u = Except.ok v)
    (b : Bool) (gr : List (Nat × String)) :
    ∃ op, buildGroup store b gr = Except.ok op := by
  match gr with
  | [] => exact ⟨_, rfl⟩
  | [(id, word)] =>
    obtain ⟨r, hr⟩ := split_best_frequency_ok store hok word
    simp only [buildGroup, fetch_synonyms, hr, bind, Except.bind]
    exact ⟨_, rfl⟩
  | (id, w) :: g2 :: rest => exact ⟨_, rfl⟩

theorem buildInterp_ok (store : Store)
    (hok : ∀ u, ∃ v, store.postingsFn u = Except.ok v)
    (groups : List (List (Nat × String))) :
    ∃ op, buildInterp store groups = Except.ok op := by
  obtain ⟨ops, hops, hlen⟩ := mapM_ok_of_forall
    (fun p => buildGroup store p.1 p.2) (isLastTag groups)
    (fun p hp => buildGroup_ok store hok p.1 p.2)
  rw [buildInterp, hops]
  exact ⟨_, rfl⟩

/-- Claim C5: for a tokenized query of `n > 3` words, the root `Or` built
by `create_query_tree` enumerates exactly `2n - 2` interpretations — the
all-singletons interpretation once, then `n - g + 1` interpretations for
each group size `g ∈ {2, 3}` — in order of increasing group size and then
increasing starting offset. -/
theorem ngram_interpretation_count (store : Store) (q : String)
    (hok : ∀ u, ∃ v, store.postingsFn u = Except.ok v)
    (h4 : 3 < (tokenize q).length) :
    ∃ children, create_query_tree store q = Except.ok (Operation.Or children) ∧
      children.length = 2 * (tokenize q).length - 2 ∧
      interpretations (tokenize q) =
        [interpAt (tokenize q) 1 0] ++
          (List.range ((tokenize q).length - 1)).map (interpAt (tokenize q) 2) ++
          (List.range ((tokenize q).length - 2)).map (interpAt (tokenize q) 3) ∧
      (interpretations (tokenize q)).mapM (buildInterp store) = Except.ok children := by
  have hw : tokenize q ≠ [] := by
    intro hcon
    rw [hcon] at h4
    simp at h4
  obtain ⟨ngrams, hng, hnglen⟩ := mapM_ok_of_forall (buildInterp store)
    (interpretations (tokenize q))
    (fun interp _ => buildInterp_ok store hok interp)
  have hilen : (interpretations (tokenize q)).length =
      2 * (tokenize q).length - 2 := by
    rw [interpretations_eq _ hw]
    simp only [List.length_append, List.length_map, List.length_range,
      List.length_singleton]
    omega
  have heq23 : (tokenize q).length + 1 - 2 = (tokenize q).length - 1 ∧
      (tokenize q).length + 1 - 3 = (tokenize q).length - 2 := by omega
  have hct : create_query_tree store q =
      Except.ok (create_operation ngrams Operation.Or) := by
    rw [create_query_tree, hng]
    rfl
  have hshape : create_operation ngrams Operation.Or = Operation.Or ngrams := by
    rcases ngrams with _ | ⟨a, _ | ⟨b, rest⟩⟩
    · rfl
    · exfalso
      rw [hilen] at hnglen
      simp at hnglen
      omega
    · rfl
  refine ⟨ngrams, by rw [hct, hshape], by omega, ?_, hng⟩
  rw [interpretations_eq _ hw, heq23.1, heq23.2]

/-- A snapshot with no postings at all. -/
def tstore : Store where
  wordsSet := []
  postingsFn := fun _ => Except.ok none
  synonymsFn := fun _ => none

/-- Witness for claim C5: the four-word query `a b c d` yields a root `Or`
with 6 = 2·4 − 2 children. -/
theorem ngram_interpretation_count_witness :
    ∃ children, create_query_tree tstore "a b c d" =
      Except.ok (Operation.Or children) ∧ children.length = 6 := by
  obtain ⟨children, h1, h2, h3, h4⟩ := ngram_interpretation_count tstore "a b c d"
    (fun u => ⟨none, rfl⟩) (by decide)
  refine ⟨children, h1, ?_⟩
  rw [h2]
  rfl

/-! ## The best-frequency split -/

/-- The pure postings length used by the split scoring, an absent entry
(or, vacuously under an error-free store, a failed read) counting as 0. -/
def freqP (store : Store) (word : String) : Nat :=
  match store.postingsFn word with
  | Except.ok o => (o.map List.length).getD 0
  | Except.error _ => 0

/-- The score of split position `i` of the word `w`: the minimum of the
postings lengths of `w[..i]` and `w[i..]` (§4.C of the spec). -/
def scoreAt (store : Store) (w : List Char) (i : Nat) : Nat :=
  min (freqP store (String.mk (w.take i))) (freqP store (String.mk (w.drop i)))

/-- One pure step of the `split_best_frequency` loop. -/
def splitStep (store : Store) (w : List Char)
    (best : Option (Nat × String × String)) (i : Nat) :
    Option (Nat × String × String) :=
  let m := scoreAt store w i
  if m != 0 && (match best with
    | none => true
    | some (old, _, _) => decide (old < m)) then
    some (m, String.mk (w.take i), String.mk (w.drop i))
  else best

theorem splitLoop_eq_fold (store : Store)
    (hok : ∀ u, ∃ v, store.postingsFn u = Except.ok v) (w : List Char) :
    ∀ ps best, splitLoop store w ps best =
      Except.ok (ps.foldl (splitStep store w) best) := by
  intro ps
  induction ps with
  | nil => intro best; rfl
  | cons i is ih =>
    intro best
    obtain ⟨v1, hv1⟩ := hok (String.mk (w.take i))
    obtain ⟨v2, hv2⟩ := hok (String.mk (w.drop i))
    simp only [splitLoop, freqOf, hv1, hv2, Except.map, bind, Except.bind,
      List.foldl_cons, splitStep, scoreAt, freqP]
    exact ih _

theorem splitStep_none_zero {store : Store} {w : List Char} {i : Nat}
    (h : scoreAt store w i = 0) : splitStep store w none i = none := by
  simp [splitStep, h]

theorem splitStep_none_pos {store : Store} {w : List Char} {i : Nat}
    (h : scoreAt store w i ≠ 0) :
    splitStep store w none i =
      some (scoreAt store w i, String.mk (w.take i), String.mk (w.drop i)) := by
  simp [splitStep, h]

theorem splitStep_some_new {store : Store} {w : List Char} {i m0 : Nat}
    {l0 r0 : String} (h1 : scoreAt store w i ≠ 0) (h2 : m0 < scoreAt store w i) :
    splitStep store w (some (m0, l0, r0)) i =
      some (scoreAt store w i, String.mk (w.take i), String.mk (w.drop i)) := by
  simp [splitStep, h1, h2]

theorem splitStep_some_keep {store : Store} {w : List Char} {i m0 : Nat}
    {l0 r0 : String} (h : scoreAt store w i = 0 ∨ scoreAt store w i ≤ m0) :
    splitStep store w (some (m0, l0, r0)) i = some (m0, l0, r0) := by
  rcases h with h | h
  · simp [splitStep, h]
  · simp [splitStep]
    intro hne
    omega

theorem splitFold_spec (store : Store) (w : List Char) : ∀ k : Nat,
    ((List.range' 1 k).foldl (splitStep store w) none = none ↔
      ∀ j, 1 ≤ j → j ≤ k → scoreAt store w j = 0) ∧
    (∀ m l r, (List.range' 1 k).foldl (splitStep store w) none = some (m, l, r) →
      ∃ i, 1 ≤ i ∧ i ≤ k ∧ m = scoreAt store w i ∧ 0 < m ∧
        l = String.mk (w.take i) ∧ r = String.mk (w.drop i) ∧
        (∀ j, 1 ≤ j → j ≤ k → scoreAt store w j ≤ m) ∧
        (∀ j, 1 ≤ j → j < i → scoreAt store w j < m)) := by
  intro k
  induction k with
  | zero =>
    constructor
    · constructor
      · intro _ j hj1 hj2
        omega
      · intro _
        rfl
    · intro m l r h
      simp [List.range'] at h
  | succ k ih =>
    rw [List.range'_concat, List.foldl_append, List.foldl_cons, List.foldl_nil,
      Nat.one_mul]
    obtain ⟨ihnone, ihsome⟩ := ih
    cases hk : (List.range' 1 k).foldl (splitStep store w) none with
    | none =>
      have hzero : ∀ j, 1 ≤ j → j ≤ k → scoreAt store w j = 0 := ihnone.mp hk
      by_cases hs : scoreAt store w (1 + k) = 0
      · rw [splitStep_none_zero hs]
        constructor
        · constructor
          · intro _ j hj1 hj2
            rcases Nat.lt_or_ge j (k + 1) with hj | hj
            · exact hzero j hj1 (by omega)
            · have : j = 1 + k := by omega
              rw [this]
              exact hs
          · intro _
            rfl
        · intro m l r h
          cases h
      · rw [splitStep_none_pos hs]
        constructor
        · constructor
          · intro h
            cases h
          · intro hall
            exact absurd (hall (1 + k) (by omega) (by omega)) hs
        · intro m l r h
          cases h
          refine ⟨1 + k, by omega, by omega, rfl, by omega, rfl, rfl, ?_, ?_⟩
          · intro j hj1 hj2
            rcases Nat.lt_or_ge j (k + 1) with hj | hj
            · rw [hzero j hj1 (by omega)]
              omega
            · have : j = 1 + k := by omega
              rw [this]
          · intro j hj1 hj2
            rw [hzero j hj1 (by omega)]
            omega
    | some b =>
      obtain ⟨m0, l0, r0⟩ := b
      obtain ⟨i0, hi1, hi2, hm0, hpos, hl0, hr0, hmax, hstrict⟩ :=
        ihsome m0 l0 r0 hk
      by_cases hs1 : scoreAt store w (1 + k) = 0
      · rw [splitStep_some_keep (Or.inl hs1)]
        constructor
        · constructor
          · intro h
            cases h
          · intro hall
            have := hall i0 hi1 (by omega)
            omega
        · intro m l r h
          injection h with h
          injection h with h1 h2
          injection h2 with h2 h3
          subst h1; subst h2; subst h3
          refine ⟨i0, hi1, by omega, hm0, hpos, hl0, hr0, ?_, hstrict⟩
          intro j hj1 hj2
          rcases Nat.lt_or_ge j (k + 1) with hj | hj
          · exact hmax j hj1 (by omega)
          · have : j = 1 + k := by omega
            rw [this, hs1]
            omega
      · by_cases hs2 : m0 < scoreAt store w (1 + k)
        · rw [splitStep_some_new hs1 hs2]
          constructor
          · constructor
            · intro h
              cases h
            · intro hall
              exact absurd (hall (1 + k) (by omega) (by omega)) hs1
          · intro m l r h
            injection h with h
            injection h with h1 h2
            injection h2 with h2 h3
            subst h1; subst h2; subst h3
            refine ⟨1 + k, by omega, by omega, rfl, by omega, rfl, rfl, ?_, ?_⟩
            · intro j hj1 hj2
              rcases Nat.lt_or_ge j (k + 1) with hj | hj
              · have := hmax j hj1 (by omega)
                omega
              · have : j = 1 + k := by omega
                rw [this]
            · intro j hj1 hj2
              have hjk : j ≤ k := by omega
              have := hmax j hj1 hjk
              omega
        · rw [splitStep_some_keep (Or.inr (by omega))]
          constructor
          · constructor
            · intro h
              cases h
            · intro hall
              have := hall i0 hi1 (by omega)
              omega
          · intro m l r h
            injection h with h
            injection h with h1 h2
            injection h2 with h2 h3
            subst h1; subst h2; subst h3
            refine ⟨i0, hi1, by omega, hm0, hpos, hl0, hr0, ?_, hstrict⟩
            intro j hj1 hj2
            rcases Nat.lt_or_ge j (k + 1) with hj | hj
            · exact hmax j hj1 (by omega)
            · have : j = 1 + k := by omega
              rw [this]
              omega

/-- Claim C4: under an error-free snapshot, `split_best_frequency` returns
the two-way split whose score — the minimum of the two sides' postings
lengths, a missing postings list counting as length 0 — is strictly
greatest and positive, ties broken by the lowest split position, and
returns `none` exactly when every split position scores 0 (no position has
both sides present). -/
theorem split_best_frequency_spec (store : Store) (word : String)
    (hok : ∀ u, ∃ v, store.postingsFn u = Except.ok v) :
    ∃ r, split_best_frequency store word = Except.ok r ∧
      (r = none ↔ ∀ j, 1 ≤ j → j ≤ word.length - 1 →
        scoreAt store word.data j = 0) ∧
      (∀ l rr, r = some (l, rr) →
        ∃ i, 1 ≤ i ∧ i ≤ word.length - 1 ∧
          l = String.mk (word.data.take i) ∧ rr = String.mk (word.data.drop i) ∧
          0 < scoreAt store word.data i ∧
          (∀ j, 1 ≤ j → j ≤ word.length - 1 →
            scoreAt store word.data j ≤ scoreAt store word.data i) ∧
          (∀ j, 1 ≤ j → j < i →
            scoreAt store word.data j < scoreAt store word.data i)) := by
  obtain ⟨hnone, hsome⟩ := splitFold_spec store word.data (word.length - 1)
  have hfold := splitLoop_eq_fold store hok word.data
    (List.range' 1 (word.length - 1)) none
  refine ⟨((List.range' 1 (word.length - 1)).foldl (splitStep store word.data)
    none).map (fun b => (b.2.1, b.2.2)), ?_, ?_, ?_⟩
  · rw [split_best_frequency, hfold]
    rfl
  · cases hk : (List.range' 1 (word.length - 1)).foldl
        (splitStep store word.data) none with
    | none =>
      simp only [Option.map_none', true_iff]
      exact hnone.mp hk
    | some b =>
      simp only [Option.map_some']
      constructor
      · intro h
        cases h
      · intro hall
        obtain ⟨m0, l0, r0⟩ := b
        obtain ⟨i0, hi1, hi2, hm0, hpos, _, _, _, _⟩ := hsome m0 l0 r0 hk
        have := hall i0 hi1 hi2
        omega
  · intro l rr h
    cases hk : (List.range' 1 (word.length - 1)).foldl
        (splitStep store word.data) none with
    | none => rw [hk] at h; cases h
    | some b =>
      obtain ⟨m0, l0, r0⟩ := b
      rw [hk] at h
      simp only [Option.map_some', Option.some.injEq, Prod.mk.injEq] at h
      obtain ⟨hl, hr⟩ := h
      obtain ⟨i0, hi1, hi2, hm0, hpos, hl0, hr0, hmax, hstrict⟩ :=
        hsome m0 l0 r0 hk
      subst hl
      subst hr
      refine ⟨i0, hi1, hi2, hl0, hr0, by omega, ?_, ?_⟩
      · intro j hj1 hj2
        have := hmax j hj1 hj2
        omega
      · intro j hj1 hj2
        have := hstrict j hj1 hj2
        omega

/-- A snapshot making `foobar` split best at `foo | bar`: `foo` has two
postings entries, `bar` three, and every other substring is absent. -/
def splitStore : Store where
  wordsSet := ["foo", "bar"]
  postingsFn := fun w =>
    if w = "foo" then Except.ok (some [⟨1, 0, 0⟩, ⟨2, 0, 0⟩])
    else if w = "bar" then Except.ok (some [⟨1, 0, 1⟩, ⟨2, 0, 1⟩, ⟨3, 0, 0⟩])
    else Except.ok none
  synonymsFn := fun _ => none

/-- Witness for claim C4: over `splitStore` the word `foobar` splits at
`foo | bar`. -/
theorem split_best_frequency_spec_witness :
    ∃ r, split_best_frequency splitStore "foobar" = Except.ok r ∧
      r = some ("foo", "bar") := by
  obtain ⟨r, hr, hnone, hsome⟩ := split_best_frequency_spec splitStore "foobar"
    (fun u => by
      simp only [splitStore]
      split
      · exact ⟨_, rfl⟩
      · split
        · exact ⟨_, rfl⟩
        · exact ⟨_, rfl⟩)
  refine ⟨r, hr, ?_⟩
  have hc : split_best_frequency splitStore "foobar" =
      Except.ok (some ("foo", "bar")) := rfl
  rw [hc] at hr
  injection hr with h
  exact h.symm

/-! ## Error propagation -/

theorem wf_getD {store : Store} (hwf : store.WF) {w : String}
    {o : Option (List DocIndex)} (h : store.postingsFn w = Except.ok o) :
    postingsSorted (o.getD []) := by
  cases o with
  | none => exact List.Pairwise.nil
  | some pl => exact hwf w pl h

theorem collectDocids_error (store : Store) :
    ∀ ws e, collectDocids store ws = Except.error e →
      ∃ w, store.postingsFn w = Except.error e := by
  intro ws
  induction ws with
  | nil => intro e h; cases h
  | cons w rest ih =>
    intro e h
    simp only [collectDocids] at h
    cases hp : store.postingsFn w with
    | error e2 =>
      rw [hp] at h
      simp only [bind, Except.bind] at h
      injection h with h
      exact ⟨w, by rw [hp, h]⟩
    | ok o =>
      rw [hp] at h
      simp only [bind, Except.bind] at h
      cases o with
      | none => exact ih e h
      | some pl =>
        cases hrest : collectDocids store rest with
        | error e2 =>
          rw [hrest] at h
          simp only at h
          injection h with h
          obtain ⟨w2, hw2⟩ := ih e2 hrest
          exact ⟨w2, by rw [hw2, h]⟩
        | ok x => rw [hrest] at h; simp at h

theorem collectDocids_ok (store : Store)
    (hok : ∀ u, ∃ v, store.postingsFn u = Except.ok v) :
    ∀ ws, ∃ x, collectDocids store ws = Except.ok x := by
  intro ws
  induction ws with
  | nil => exact ⟨[], rfl⟩
  | cons w rest ih =>
    obtain ⟨v, hv⟩ := hok w
    obtain ⟨x, hx⟩ := ih
    cases v with
    | none => exact ⟨x, by simp only [collectDocids, hv, bind, Except.bind, hx]⟩
    | some pl =>
      exact ⟨pl.map DocIndex.document_id ++ x,
        by simp only [collectDocids, hv, bind, Except.bind, hx]⟩

theorem executeQuery_error (store : Store) (hwf : store.WF) (q : Query) (e : Err)
    (h : executeQuery store q = Except.error e) :
    ∃ w, store.postingsFn w = Except.error e := by
  obtain ⟨id, pb, kind⟩ := q
  cases kind with
  | Tolerant word =>
    simp only [executeQuery] at h
    cases hc : collectDocids store (store.wordsSet.filter
        (if pb then buildPrefixDfa word else buildDfa word)) with
    | error e2 =>
      rw [hc] at h
      simp only [Except.map] at h
      injection h with h
      subst h
      exact collectDocids_error store _ e2 hc
    | ok x => rw [hc] at h; simp [Except.map] at h
  | Exact word =>
    simp only [executeQuery] at h
    cases hc : collectDocids store (store.wordsSet.filter (buildExactDfa word)) with
    | error e2 =>
      rw [hc] at h
      simp only [Except.map] at h
      injection h with h
      subst h
      exact collectDocids_error store _ e2 hc
    | ok x => rw [hc] at h; simp [Except.map] at h
  | Phrase words =>
    rcases words with _ | ⟨w1, _ | ⟨w2, _ | ⟨w3, rest⟩⟩⟩
    · cases h
    · cases h
    · cases hp1 : store.postingsFn w1 with
      | error e1 =>
        simp only [executeQuery, postingsOrEmpty, hp1, Except.map, bind,
          Except.bind] at h
        injection h with h
        exact ⟨w1, by rw [hp1, h]⟩
      | ok o1 =>
        cases hp2 : store.postingsFn w2 with
        | error e2 =>
          simp only [executeQuery, postingsOrEmpty, hp1, hp2, Except.map, bind,
            Except.bind] at h
          injection h with h
          exact ⟨w2, by rw [hp2, h]⟩
        | ok o2 =>
          exfalso
          rw [executeQuery_phrase_ok store id pb w1 w2 o1 o2 hp1 hp2
            (wf_getD hwf hp1)] at h
          cases h
    · cases h

theorem executeQuery_ok (store : Store) (hwf : store.WF)
    (hok : ∀ u, ∃ v, store.postingsFn u = Except.ok v) (q : Query) :
    ∃ s, executeQuery store q = Except.ok s := by
  obtain ⟨id, pb, kind⟩ := q
  cases kind with
  | Tolerant word =>
    obtain ⟨x, hx⟩ := collectDocids_ok store hok (store.wordsSet.filter
      (if pb then buildPrefixDfa word else buildDfa word))
    exact ⟨setFromDirty x, by simp only [executeQuery, hx, Except.map]⟩
  | Exact word =>
    obtain ⟨x, hx⟩ := collectDocids_ok store hok
      (store.wordsSet.filter (buildExactDfa word))
    exact ⟨setFromDirty x, by simp only [executeQuery, hx, Except.map]⟩
  | Phrase words =>
    rcases words with _ | ⟨w1, _ | ⟨w2, _ | ⟨w3, rest⟩⟩⟩
    · exact ⟨[], rfl⟩
    · exact ⟨[], rfl⟩
    · obtain ⟨o1, hp1⟩ := hok w1
      obtain ⟨o2, hp2⟩ := hok w2
      exact ⟨phraseDocids (o1.getD []) (o2.getD []),
        executeQuery_phrase_ok store id pb w1 w2 o1 o2 hp1 hp2 (wf_getD hwf hp1)⟩
    · exact ⟨[], rfl⟩

theorem evalOperations_error (store : Store) :
    ∀ ops e, evalOperations store ops = Except.error e →
      ∃ op ∈ ops, evalOperation store op = Except.error e := by
  intro ops
  induction ops with
  | nil => intro e h; cases h
  | cons op os ih =>
    intro e h
    simp only [evalOperations] at h
    cases he : evalOperation store op with
    | error e2 =>
      rw [he] at h
      simp only [bind, Except.bind] at h
      injection h with h
      exact ⟨op, List.mem_cons_self op os, by rw [he, h]⟩
    | ok s =>
      rw [he] at h
      cases hos : evalOperations store os with
      | error e2 =>
        rw [hos] at h
        simp only [bind, Except.bind] at h
        injection h with h
        subst h
        obtain ⟨op2, hop2, he2⟩ := ih e2 hos
        exact ⟨op2, List.mem_cons_of_mem op hop2, he2⟩
      | ok rs =>
        rw [hos] at h
        simp [bind, Except.bind] at h

theorem evalOperations_ok_of_children (store : Store) :
    ∀ ops, (∀ o ∈ ops, ∃ s, evalOperation store o = Except.ok s) →
      ∃ rs, evalOperations store ops = Except.ok rs := by
  intro ops
  induction ops with
  | nil => intro _; exact ⟨[], rfl⟩
  | cons o os ih =>
    intro hall
    obtain ⟨s0, hs0⟩ := hall o (List.mem_cons_self o os)
    obtain ⟨rs0, hrs0⟩ := ih (fun o2 ho2 => hall o2 (List.mem_cons_of_mem o ho2))
    exact ⟨s0 :: rs0,
      by simp only [evalOperations, hs0, hrs0, bind, Except.bind]⟩

theorem evalOperation_error (store : Store) (hwf : store.WF) :
    ∀ op e, evalOperation store op = Except.error e →
      ∃ w, store.postingsFn w = Except.error e := by
  have main : ∀ n op, sizeOf op ≤ n → ∀ e,
      evalOperation store op = Except.error e →
      ∃ w, store.postingsFn w = Except.error e := by
    intro n
    induction n with
    | zero =>
      intro op hop
      exfalso
      cases op <;> simp at hop
    | succ n ih =>
      intro op hop e h
      match op with
      | Operation.Query q =>
        simp only [evalOperation] at h
        exact executeQuery_error store hwf q e h
      | Operation.And ops =>
        simp only [evalOperation] at h
        cases hres : evalOperations store ops with
        | error e2 =>
          rw [hres] at h
          simp only [bind, Except.bind] at h
          injection h with h
          subst h
          obtain ⟨op2, hop2, he2⟩ := evalOperations_error store ops e2 hres
          have hsize : sizeOf op2 ≤ n := by
            have h1 : sizeOf op2 < sizeOf ops := List.sizeOf_lt_of_mem hop2
            have h2 : sizeOf (Operation.And ops) = 1 + sizeOf ops := by simp
            omega
          exact ih op2 hsize e2 he2
        | ok rs => rw [hres] at h; simp [bind, Except.bind] at h
      | Operation.Or ops =>
        simp only [evalOperation] at h
        cases hres : evalOperations store ops with
        | error e2 =>
          rw [hres] at h
          simp only [bind, Except.bind] at h
          injection h with h
          subst h
          obtain ⟨op2, hop2, he2⟩ := evalOperations_error store ops e2 hres
          have hsize : sizeOf op2 ≤ n := by
            have h1 : sizeOf op2 < sizeOf ops := List.sizeOf_lt_of_mem hop2
            have h2 : sizeOf (Operation.Or ops) = 1 + sizeOf ops := by simp
            omega
          exact ih op2 hsize e2 he2
        | ok rs => rw [hres] at h; simp [bind, Except.bind] at h
  intro op
  exact main (sizeOf op) op (le_refl _)

theorem evalOperation_ok (store : Store) (hwf : store.WF)
    (hok : ∀ u, ∃ v, store.postingsFn u = Except.ok v) :
    ∀ op, ∃ s, evalOperation store op = Except.ok s := by
  have main : ∀ n op, sizeOf op ≤ n → ∃ s,
      evalOperation store op = Except.ok s := by
    intro n
    induction n with
    | zero =>
      intro op hop
      exfalso
      cases op <;> simp at hop
    | succ n ih =>
      intro op hop
      match op with
      | Operation.Query q => exact executeQuery_ok store hwf hok q
      | Operation.And ops =>
        obtain ⟨rs, hrs⟩ := evalOperations_ok_of_children store ops (fun o ho => by
          have hsize : sizeOf o ≤ n := by
            have h1 : sizeOf o < sizeOf ops := List.sizeOf_lt_of_mem ho
            have h2 : sizeOf (Operation.And ops) = 1 + sizeOf ops := by simp
            omega
          exact ih o hsize)
        exact ⟨multiIntersection rs,
          by simp only [evalOperation, hrs, bind, Except.bind]⟩
      | Operation.Or ops =>
        obtain ⟨rs, hrs⟩ := evalOperations_ok_of_children store ops (fun o ho => by
          have hsize : sizeOf o ≤ n := by
            have h1 : sizeOf o < sizeOf ops := List.sizeOf_lt_of_mem ho
            have h2 : sizeOf (Operation.Or ops) = 1 + sizeOf ops := by simp
            omega
          exact ih o hsize)
        exact ⟨setFromDirty rs.flatten,
          by simp only [evalOperation, hrs, bind, Except.bind]⟩
  intro op
  exact main (sizeOf op) op (le_refl _)

/-- Claim C8: over a well-formed snapshot, `traverse_query_tree` returns
an error exactly when an underlying postings-list read fails, and the
error value propagates unchanged; a term absent from the postings store is
treated as an empty postings list, evaluation continues past it, and no
error is produced. -/
theorem error_propagation (store : Store) (hwf : store.WF) :
    (∀ tree e, traverse_query_tree store tree = Except.error e →
      ∃ w, store.postingsFn w = Except.error e) ∧
    ((∀ u, ∃ v, store.postingsFn u = Except.ok v) →
      ∀ tree, ∃ r, traverse_query_tree store tree = Except.ok r) ∧
    (∀ w ws, store.postingsFn w = Except.ok none →
      collectDocids store (w :: ws) = collectDocids store ws) := by
  refine ⟨?_, ?_, ?_⟩
  · intro tree e h
    rw [traverse_query_tree] at h
    cases hev : evalOperation store tree with
    | error e2 =>
      rw [hev] at h
      simp only [Except.map] at h
      injection h with h
      subst h
      exact evalOperation_error store hwf tree e2 hev
    | ok s => rw [hev] at h; simp [Except.map] at h
  · intro hok tree
    obtain ⟨s, hs⟩ := evalOperation_ok store hwf hok tree
    exact ⟨⟨s, []⟩, by rw [traverse_query_tree, hs]; rfl⟩
  · intro w ws hw
    simp only [collectDocids, hw, bind, Except.bind]

/-- A snapshot whose every postings read fails with the same io error. -/
def estoreC8 : Store where
  wordsSet := ["hello"]
  postingsFn := fun _ => Except.error "io error"
  synonymsFn := fun _ => none

/-- Witness for claim C8: the failing read's error value is surfaced
unchanged by the traversal. -/
theorem error_propagation_witness :
    ∃ w, estoreC8.postingsFn w = Except.error "io error" :=
  (error_propagation estoreC8 (fun _ _ h => Except.noConfusion h)).1
    (Operation.Query (Query.exact 0 false "hello")) "io error" rfl
